import Mathlib

/-!
Shallow embedding of the resumable incremental indexing pipeline and the
search-result deduplication logic of the `code-rag-mcp` repository
(Go packages `rag`: `incremental_indexer.go`, `vectordb.go`, the indexer
file defining `chunkFile`/`indexBatch`/`ReindexFiles`, and the indexing
state file defining `IndexingState`).

Modelling conventions:
- Go strings are Lean `String`s.  Go's byte-wise string comparison agrees
  with code-point lexicographic comparison on UTF-8 data, which is the
  order of Mathlib's `LinearOrder String`.
- Go `int` counters that only ever hold non-negative counts are `Nat`;
  line numbers parsed back from keys by `strconv.Atoi` are `Int`.
- `map[string]bool` / `map[string]string` are association lists with
  set/update semantics; map iteration is only ever used to test whether
  some key satisfies a predicate, which is order-independent.
- Timestamps, logging, the mutex in `IndexingState`, `time.Sleep`, and
  Qdrant wire types are elided: no claim mentions them.
- The filesystem is a pure value: a list of files, each given by its
  path components relative to the indexing root plus its content.
  `os.ReadFile`/`os.Stat` failure is modelled as absence from that list.
- The embedding service and the vector store are oracles
  `embedOk upsertOk : List CodeChunk → Bool` deciding whether a given
  call succeeds; runs record their embed/upsert calls in a trace.
- `float64(x) > float64(y)*0.5` on Go ints `x`, `y` is modelled as
  `2*x > y`: conversion of ints below 2^53 to float64 is exact and
  multiplication by 0.5 is exact, so the comparisons agree there.
-/

namespace Rag

/-! ### Go string primitives

`splitChar sep` models `strings.Split` with a one-character separator
(the only separators the source uses: `"\n"`, `":"`, `"-"`, `"."`).
`joinChar sep` models `strings.Join`. -/

def splitCharAux (sep : Char) : List Char → List Char → List String
  | [], acc => [String.mk acc.reverse]
  | c :: rest, acc =>
    if c = sep then String.mk acc.reverse :: splitCharAux sep rest []
    else splitCharAux sep rest (c :: acc)

def splitChar (sep : Char) (s : String) : List String :=
  splitCharAux sep s.data []

def joinChar (sep : Char) : List String → String
  | [] => ""
  | [s] => s
  | s :: rest => s ++ String.singleton sep ++ joinChar sep rest

/-- Go `unicode.IsSpace` (Latin-1 fast path plus the White_Space table
entries above U+00FF). -/
def goIsSpace (c : Char) : Bool :=
  c = ' ' || c = '\t' || c = '\n' || c.toNat = 0x0b || c.toNat = 0x0c || c = '\r' ||
  c.toNat = 0x85 || c.toNat = 0xA0 || c.toNat = 0x1680 ||
  (0x2000 ≤ c.toNat && c.toNat ≤ 0x200A) ||
  c.toNat = 0x2028 || c.toNat = 0x2029 || c.toNat = 0x202F ||
  c.toNat = 0x205F || c.toNat = 0x3000

/-- `strings.TrimSpace(s) == ""` holds exactly when every character of `s`
is whitespace; the source only ever compares the trimmed string to `""`. -/
def isBlank (s : String) : Bool :=
  s.data.all goIsSpace

/-- Go `strconv.Atoi`: optional sign, then one or more digits, nothing
else.  (64-bit overflow is not modelled; all inputs in this development
are far below it.) -/
def parseDigits : List Char → Option Nat
  | [] => none
  | l => if l.all Char.isDigit
         then some (l.foldl (fun a c => 10 * a + (c.toNat - 48)) 0)
         else none

def goAtoi (s : String) : Option Int :=
  match s.data with
  | '+' :: rest => (parseDigits rest).map Int.ofNat
  | '-' :: rest => (parseDigits rest).map (fun n => -(n : Int))
  | l => (parseDigits l).map Int.ofNat

/-- Go's byte-wise string comparison `<`, on code points (UTF-8 byte
order and code-point order agree). -/
def goStrLtList : List Char → List Char → Bool
  | [], [] => false
  | [], _ :: _ => true
  | _ :: _, [] => false
  | a :: as, b :: bs =>
    if a.toNat < b.toNat then true
    else if b.toNat < a.toNat then false
    else goStrLtList as bs

def goStrLt (a b : String) : Bool :=
  goStrLtList a.data b.data

/-- `filepath.Ext`: the suffix of the final path element starting at its
final dot, empty when the final element has no dot. -/
def goExt (p : String) : String :=
  let base := (splitChar '/' p).getLastD ""
  if base.data.contains '.' then "." ++ (splitChar '.' base).getLastD ""
  else ""

/-! ### Search results and deduplication (`vectordb.go`) -/

structure SearchResult where
  ID : String
  Score : ℚ
  FilePath : String
  Content : String
  LineStart : Int
  LineEnd : Int
  Language : String
deriving DecidableEq

/-- The key `fmt.Sprintf("%s:%d-%d", FilePath, LineStart, LineEnd)` built
in `deduplicateResults`. -/
def rangeKey (r : SearchResult) : String :=
  r.FilePath ++ ":" ++ toString r.LineStart ++ "-" ++ toString r.LineEnd

/-- `parseRangeKey` of `vectordb.go`: splits `"file:start-end"`, requiring
exactly two `":"` parts and two `"-"` parts, and returns
`[0, start, end]` — the literal `0` the source substitutes as "placeholder
for file". -/
def parseRangeKey (key : String) : Option (List Int) :=
  match splitChar ':' key with
  | [_, r] =>
    match splitChar '-' r with
    | [a, b] =>
      match goAtoi a, goAtoi b with
      | some s, some e => some [0, s, e]
      | _, _ => none
    | _ => none
  | _ => none

/-- `isOverlapping` of `vectordb.go`.  The float comparison
`float64(overlap) > float64(range)*0.5` is rendered as
`2*overlap > range` (exact for the integer magnitudes involved). -/
def isOverlapping (key1 key2 : String) : Bool :=
  match parseRangeKey key1, parseRangeKey key2 with
  | some [f1, s1, e1], some [f2, s2, e2] =>
    if f1 ≠ f2 then false
    else
      let overlapStart := max s1 s2
      let overlapEnd := min e1 e2
      if overlapStart ≥ overlapEnd then false
      else
        2 * (overlapEnd - overlapStart) > e1 - s1 ||
        2 * (overlapEnd - overlapStart) > e2 - s2
  | _, _ => false

/-- The loop of `deduplicateResults`: `seen` is the key set built so far;
a result is dropped when some seen key overlaps its key (Go iterates the
`seen` map and breaks on the first overlap, so only existence matters). -/
def dedupGo (seen : List String) : List SearchResult → List SearchResult
  | [] => []
  | r :: rest =>
    if seen.any (fun k => isOverlapping k (rangeKey r))
    then dedupGo seen rest
    else r :: dedupGo (rangeKey r :: seen) rest

/-- `deduplicateResults` of `vectordb.go`: empty input returned as is,
otherwise the greedy keep-first filter. -/
def deduplicateResults (results : List SearchResult) : List SearchResult :=
  if results.isEmpty then results else dedupGo [] results

/-! ### Chunker (`chunkFile` and `detectLanguage` of the indexer file) -/

structure CodeChunk where
  FilePath : String
  Content : String
  LineStart : Nat
  LineEnd : Nat
  Language : String
deriving DecidableEq

def detectLanguage (filePath : String) : String :=
  match goExt filePath with
  | ".go" => "go"
  | ".py" => "python"
  | ".js" => "javascript"
  | ".ts" => "typescript"
  | ".tf" => "terraform"
  | ".yaml" => "yaml"
  | ".yml" => "yaml"
  | ".md" => "markdown"
  | ".json" => "json"
  | ".sh" => "bash"
  | ".rs" => "rust"
  | ".java" => "java"
  | ".c" => "c"
  | ".h" => "c"
  | ".cpp" => "cpp"
  | ".hpp" => "cpp"
  | ".cc" => "cpp"
  | _ => "unknown"

/-- The window text `strings.Join(lines[i:end], "\n")` with
`end = min(i+chunkSize, len(lines))`, `chunkSize = 50`. -/
def window (lines : List String) (i : Nat) : String :=
  joinChar '\n' ((lines.drop i).take (min (i + 50) lines.length - i))

/-- The chunking loop of `chunkFile` from loop index `i`, driven by a
fuel argument so that the definition is structurally recursive (and hence
computable by the kernel); `chunkLoop` below instantiates the fuel with
`lines.length - i`, which `chunkLoop_eq` proves sufficient.  The loop is
`for i := 0; i < len(lines); i += chunkSize - overlap` with
`chunkSize = 50`, `overlap = 10` (stride 40).  A window whose trimmed
content is empty is skipped (`continue`); otherwise a chunk with 1-based
inclusive range `[i+1, end]` is emitted, and the loop breaks right after
emitting a window whose end reached the last line. -/
def chunkLoopF (fp : String) (lines : List String) : Nat → Nat → List CodeChunk
  | _, 0 => []
  | i, fuel + 1 =>
    if i < lines.length then
      if isBlank (window lines i) then chunkLoopF fp lines (i + 40) fuel
      else if min (i + 50) lines.length = lines.length then
        [⟨fp, window lines i, i + 1, min (i + 50) lines.length, detectLanguage fp⟩]
      else
        ⟨fp, window lines i, i + 1, min (i + 50) lines.length, detectLanguage fp⟩ ::
          chunkLoopF fp lines (i + 40) fuel
    else []

def chunkLoop (fp : String) (lines : List String) (i : Nat) : List CodeChunk :=
  chunkLoopF fp lines i (lines.length - i)

/-- `chunkFile` after the `os.ReadFile` succeeded: split the content on
newlines and run the window loop from index 0. -/
def chunkContent (fp text : String) : List CodeChunk :=
  chunkLoop fp (splitChar '\n' text) 0

/-- No window the chunking loop can visit (loop indices are the multiples
of the stride 40) is all-whitespace, i.e. no window is dropped. -/
def nonBlankWindows (lines : List String) : Prop :=
  ∀ j, j < lines.length → j % 40 = 0 → isBlank (window lines j) = false

instance (lines : List String) : Decidable (nonBlankWindows lines) :=
  inferInstanceAs
    (Decidable (∀ j, j < lines.length → j % 40 = 0 → isBlank (window lines j) = false))

/-! ### Indexing state (`IndexingState`)

Timestamps (`StartTime`, `LastUpdate`, `CompletionTime`) and the mutex
are elided; `ProcessedFiles : map[string]bool` (only ever set to `true`)
is a list of keys with set semantics, `FailedFiles : map[string]string`
an association list with update-or-append semantics. -/

structure IndexingState where
  RootPath : String
  TotalFiles : Nat
  IndexedFiles : Nat
  TotalChunks : Nat
  ProcessedFiles : List String
  FailedFiles : List (String × String)
  Status : String
deriving DecidableEq

def NewIndexingState (rootPath : String) : IndexingState :=
  ⟨rootPath, 0, 0, 0, [], [], "in_progress"⟩

def insertSet (l : List String) (x : String) : List String :=
  if l.contains x then l else l ++ [x]

def insertMap (l : List (String × String)) (k v : String) : List (String × String) :=
  if (l.lookup k).isSome
  then l.map (fun p => if p.1 = k then (k, v) else p)
  else l ++ [(k, v)]

def MarkFileProcessed (s : IndexingState) (filePath : String) (chunksCount : Nat) :
    IndexingState :=
  { s with ProcessedFiles := insertSet s.ProcessedFiles filePath,
           IndexedFiles := s.IndexedFiles + 1,
           TotalChunks := s.TotalChunks + chunksCount }

def MarkFileFailed (s : IndexingState) (filePath errorMsg : String) : IndexingState :=
  { s with FailedFiles := insertMap s.FailedFiles filePath errorMsg }

def IsFileProcessed (s : IndexingState) (filePath : String) : Bool :=
  s.ProcessedFiles.contains filePath

def SetStatus (s : IndexingState) (status : String) : IndexingState :=
  { s with Status := status }

/-! ### File collection (`collectFiles` of `incremental_indexer.go`)

The tree walk is modelled by a list of source files, each carrying its
path components relative to the walk root (components are assumed
slash-free and non-empty, as `filepath.Walk`/`filepath.Rel` produce).
`filepath.Walk` prunes a directory whose basename is in `skipDirs` or
starts with a dot, so a file survives the walk exactly when none of its
ancestor directory components is skipped.  The walk's visiting order is
left arbitrary: `collectFiles` is applied to the file list in whatever
order it comes, which is what the determinism theorem quantifies over. -/

structure SrcFile where
  parts : List String
  content : String
deriving DecidableEq

def priorityDirs : String → Option Nat
  | "middleware" => some 1
  | "api" => some 2
  | "src" => some 3
  | "lib" => some 4
  | "core" => some 5
  | "utils" => some 6
  | "services" => some 7
  | "models" => some 8
  | "routes" => some 9
  | "handlers" => some 10
  | _ => none

def skipDirs (d : String) : Bool :=
  d = "node_modules" || d = ".git" || d = "vendor" || d = "__pycache__" ||
  d = ".venv" || d = "venv" || d = "dist" || d = "build" || d = "coverage" ||
  d = "test" || d = "tests" || d = "__tests__" || d = "spec" || d = "specs" ||
  d = "mocks" || d = "fixtures" || d = ".next" || d = ".nuxt" ||
  d = "target" || d = "bin"

def startsWithDot (d : String) : Bool :=
  match d.data with
  | '.' :: _ => true
  | _ => false

/-- `contains` of the indexer file: linear scan of the extension
allow-list. -/
def contains (slice : List String) (item : String) : Bool :=
  slice.any (fun s => s = item)

/-- The priority scan: the first path component of the relative path that
appears in `priorityDirs` wins (`break`); default priority is 99. -/
def priorityOf : List String → Nat
  | [] => 99
  | p :: rest =>
    match priorityDirs p with
    | some k => k
    | none => priorityOf rest

def fullPath (rootPath : String) (f : SrcFile) : String :=
  rootPath ++ "/" ++ joinChar '/' f.parts

/-- The per-file walk filter: not under a pruned directory, extension in
the allow-list, size (UTF-8 byte count) at most 1 MiB. -/
def candidateFile (extensions : List String) (f : SrcFile) : Bool :=
  f.parts.dropLast.all (fun d => !(skipDirs d || startsWithDot d)) &&
  contains extensions (goExt (f.parts.getLastD "")) &&
  !(f.content.utf8ByteSize > 1024 * 1024)

/-- The comparator of `sort.Slice` in `collectFiles`, as a total
(non-strict) order: ascending priority, lexicographic full path as
tie-break.  `sort.Slice` is unstable, but this order is antisymmetric on
(path, priority) pairs, so every sort consistent with the source's strict
comparator produces the same list — modelled with `insertionSort`. -/
def fileLe (a b : String × Nat) : Bool :=
  if a.2 = b.2 then !goStrLt b.1 a.1 else decide (a.2 < b.2)

def fileOrd (a b : String × Nat) : Prop :=
  fileLe a b = true

instance : DecidableRel fileOrd :=
  fun a b => instDecidableEqBool (fileLe a b) true

def collectPairs (rootPath : String) (extensions : List String)
    (fs : List SrcFile) : List (String × Nat) :=
  List.insertionSort fileOrd
    ((fs.filter (candidateFile extensions)).map
      (fun f => (fullPath rootPath f, priorityOf f.parts)))

/-- `collectFiles`: the prioritized, sorted candidate path list. -/
def collectFiles (rootPath : String) (extensions : List String)
    (fs : List SrcFile) : List String :=
  (collectPairs rootPath extensions fs).map Prod.fst

/-! ### The indexing pipeline (`IndexDirectoryIncremental`, `processBatch`,
`indexBatch`, `ReindexFiles`)

Runs are pure functions of the filesystem, the two success oracles for
the embedding service and the vector store, and the loaded persisted
state; they return the final state together with a trace of the external
calls the run made.  `ctx` cancellation is never signalled in this model
(the claims about runs all assume an uninterrupted run), and state
persistence always succeeds (`Save` errors are only logged by the
source); `Save` calls are recorded in the trace. -/

/-- `os.ReadFile` of a collected path: succeeds exactly when some file of
the tree has that full path (first match, as paths are unique in a real
tree). -/
def readFile (rootPath : String) (fs : List SrcFile) (p : String) : Option String :=
  (fs.find? (fun f => fullPath rootPath f = p)).map SrcFile.content

/-- `chunkFile`: read then chunk; a read error yields `none` (zero
chunks, reported to the caller). -/
def chunkFile (rootPath : String) (fs : List SrcFile) (filePath : String) :
    Option (List CodeChunk) :=
  (readFile rootPath fs filePath).map (chunkContent filePath)

/-- One `indexBatch` call of the source: one `EmbedBatch` call for the
whole chunk list (recorded), then, if it succeeded, one `Upsert` call
(recorded).  Returns whether the call chain succeeded.  Point ids,
vectors and payloads are not modelled; an upsert call is recorded by the
chunks it carries. -/
def indexBatchCall (embedOk upsertOk : List CodeChunk → Bool) (chunks : List CodeChunk) :
    Bool × List (List CodeChunk) × List (List CodeChunk) :=
  if embedOk chunks then
    if upsertOk chunks then (true, [chunks], [chunks])
    else (false, [chunks], [chunks])
  else (false, [chunks], [])

/-- The sub-batch loop of `processBatch`: `ChunkBatchSize = 100` chunks
per `indexBatch` call, returning on the first failed call (remaining
sub-batches are not attempted).  Fueled structural recursion; fuel
`chunks.length` is sufficient, see `indexBatches_eq`. -/
def indexBatchesF (embedOk upsertOk : List CodeChunk → Bool) :
    Nat → List CodeChunk → Bool × List (List CodeChunk) × List (List CodeChunk)
  | _, [] => (true, [], [])
  | 0, _ :: _ => (true, [], [])
  | fuel + 1, c :: cs =>
    let batch := (c :: cs).take 100
    let r1 := indexBatchCall embedOk upsertOk batch
    if r1.1 then
      let r2 := indexBatchesF embedOk upsertOk fuel ((c :: cs).drop 100)
      (r2.1, r1.2.1 ++ r2.2.1, r1.2.2 ++ r2.2.2)
    else r1

def indexBatches (embedOk upsertOk : List CodeChunk → Bool) (chunks : List CodeChunk) :
    Bool × List (List CodeChunk) × List (List CodeChunk) :=
  indexBatchesF embedOk upsertOk chunks.length chunks

/-- The first loop of `processBatch`: chunk every file of the batch,
marking failures (`MarkFileFailed`) and successes (`MarkFileProcessed`,
zero-chunk files included) and accumulating the chunks of successfully
chunked files in order.  The source's `chunks[i].FilePath = filePath`
re-assignment is a no-op here: `chunkContent` already stamps the path. -/
def markPhase (rootPath : String) (fs : List SrcFile) (files : List String)
    (st : IndexingState) : IndexingState × List CodeChunk :=
  match files with
  | [] => (st, [])
  | f :: rest =>
    match chunkFile rootPath fs f with
    | none => markPhase rootPath fs rest (MarkFileFailed st f "read error")
    | some chunks =>
      if chunks.isEmpty then markPhase rootPath fs rest (MarkFileProcessed st f 0)
      else
        let r := markPhase rootPath fs rest (MarkFileProcessed st f chunks.length)
        (r.1, chunks ++ r.2)

structure BatchResult where
  ok : Bool
  state : IndexingState
  embeds : List (List CodeChunk)
  upserts : List (List CodeChunk)
deriving DecidableEq

/-- `processBatch`: mark/collect phase first, then the embedding/upsert
sub-batch loop over all collected chunks.  `chunkFile` is invoked on
every file of the batch, before any embedding work. -/
def processBatch (rootPath : String) (fs : List SrcFile)
    (embedOk upsertOk : List CodeChunk → Bool) (files : List String)
    (st : IndexingState) : BatchResult :=
  let m := markPhase rootPath fs files st
  if m.2.isEmpty then ⟨true, m.1, [], []⟩
  else
    let r := indexBatches embedOk upsertOk m.2
    ⟨r.1, m.1, r.2.1, r.2.2⟩

/-- Trace of one pipeline run: the files `chunkFile` was called on, the
`EmbedBatch` and `Upsert` calls, the `SetStatus` calls, and the states
passed to `Save`, in order. -/
structure Trace where
  chunked : List String
  embeds : List (List CodeChunk)
  upserts : List (List CodeChunk)
  statusSets : List String
  saves : List IndexingState
deriving DecidableEq

structure RunAcc where
  state : IndexingState
  chunked : List String
  embeds : List (List CodeChunk)
  upserts : List (List CodeChunk)
  saves : List IndexingState
deriving DecidableEq

/-- The batch loop of `IndexDirectoryIncremental`: `FileBatchSize = 50`
files per `processBatch` call; a failed batch is logged and the loop
continues; the state is saved after every batch.  Fueled structural
recursion; fuel `files.length` is sufficient, see `runBatches_eq`. -/
def runBatchesF (rootPath : String) (fs : List SrcFile)
    (embedOk upsertOk : List CodeChunk → Bool) :
    Nat → List String → IndexingState → RunAcc
  | _, [], st => ⟨st, [], [], [], []⟩
  | 0, _ :: _, st => ⟨st, [], [], [], []⟩
  | fuel + 1, f :: rest, st =>
    let batch := (f :: rest).take 50
    let b := processBatch rootPath fs embedOk upsertOk batch st
    let r := runBatchesF rootPath fs embedOk upsertOk fuel ((f :: rest).drop 50) b.state
    ⟨r.state, batch ++ r.chunked, b.embeds ++ r.embeds, b.upserts ++ r.upserts,
      b.state :: r.saves⟩

def runBatches (rootPath : String) (fs : List SrcFile)
    (embedOk upsertOk : List CodeChunk → Bool) (files : List String)
    (st : IndexingState) : RunAcc :=
  runBatchesF rootPath fs embedOk upsertOk files.length files st

/-- The state-selection step at the top of `IndexDirectoryIncremental`:
start fresh when loading failed (`loaded = none`), the persisted root
path differs from the requested path, or the persisted status is
`"completed"`; otherwise resume the persisted state. -/
def initState (loaded : Option IndexingState) (path : String) : IndexingState :=
  match loaded with
  | none => NewIndexingState path
  | some st =>
    if st.RootPath ≠ path ∨ st.Status = "completed" then NewIndexingState path else st

structure RunResult where
  state : IndexingState
  trace : Trace
deriving DecidableEq

/-- The body of `IndexDirectoryIncremental` after the state was
selected: collect and prioritize candidate files, record the total,
filter out the already-processed ones, then either complete immediately
(nothing left to do) or run the batch loop and complete.  The final
status is set and the state saved in both paths. -/
def pipelineRun (path : String) (extensions : List String) (fs : List SrcFile)
    (embedOk upsertOk : List CodeChunk → Bool) (st0 : IndexingState) : RunResult :=
  let allFiles := collectFiles path extensions fs
  let st1 := { st0 with TotalFiles := allFiles.length }
  let filesToProcess := allFiles.filter (fun f => !(IsFileProcessed st1 f))
  if filesToProcess.isEmpty then
    let st2 := SetStatus st1 "completed"
    ⟨st2, ⟨[], [], [], ["completed"], [st2]⟩⟩
  else
    let r := runBatches path fs embedOk upsertOk filesToProcess st1
    let st2 := SetStatus r.state "completed"
    ⟨st2, ⟨r.chunked, r.embeds, r.upserts, ["completed"], r.saves ++ [st2]⟩⟩

/-- `IndexDirectoryIncremental`: state selection followed by the body. -/
def IndexDirectoryIncremental (path : String) (extensions : List String)
    (fs : List SrcFile) (embedOk upsertOk : List CodeChunk → Bool)
    (loaded : Option IndexingState) : RunResult :=
  pipelineRun path extensions fs embedOk upsertOk (initState loaded path)

/-! ### `ReindexFiles` (targeted delta update) -/

structure ReindexResult where
  ok : Bool
  deletes : List String
  chunked : List String
  embeds : List (List CodeChunk)
  upserts : List (List CodeChunk)
deriving DecidableEq

/-- The per-file loop of `ReindexFiles`: a store delete (recorded by
path) is issued for every requested path; a delete failure is only
logged, so no oracle is needed.  If the file no longer exists
(`os.Stat`/`os.IsNotExist`), nothing else happens for it; otherwise it is
re-chunked (recorded), and its chunks — when any — are appended.  Returns
(deletes, chunked files, all accumulated chunks). -/
def reindexLoop (rootPath : String) (fs : List SrcFile) :
    List String → List String × List String × List CodeChunk
  | [] => ([], [], [])
  | p :: rest =>
    let r := reindexLoop rootPath fs rest
    match readFile rootPath fs p with
    | none => (p :: r.1, r.2.1, r.2.2)
    | some content =>
      let chunks := chunkContent p content
      if chunks.isEmpty then (p :: r.1, p :: r.2.1, r.2.2)
      else (p :: r.1, p :: r.2.1, chunks ++ r.2.2)

/-- `ReindexFiles`: the delete/re-chunk loop, then — only when some
chunks were produced — one single combined `indexBatch` call whose
failure fails the whole request. -/
def ReindexFiles (rootPath : String) (fs : List SrcFile)
    (embedOk upsertOk : List CodeChunk → Bool) (filePaths : List String) :
    ReindexResult :=
  let l := reindexLoop rootPath fs filePaths
  if l.2.2.isEmpty then ⟨true, l.1, l.2.1, [], []⟩
  else
    let r := indexBatchCall embedOk upsertOk l.2.2
    ⟨r.1, l.1, l.2.1, r.2.1, r.2.2⟩

/-! ## Theorems -/

/-! ### The Go string order is a linear order -/

theorem char_eq_of_toNat_eq {a b : Char} (h : a.toNat = b.toNat) : a = b := by
  have h2 := congrArg Char.ofNat h
  rwa [Char.ofNat_toNat, Char.ofNat_toNat] at h2

theorem goStrLtList_irrefl : ∀ l : List Char, goStrLtList l l = false := by
  intro l
  induction l with
  | nil => rfl
  | cons a as ih => simp [goStrLtList, ih]

theorem goStrLtList_trans : ∀ a b c : List Char, goStrLtList a b = true →
    goStrLtList b c = true → goStrLtList a c = true := by
  intro a
  induction a with
  | nil =>
    intro b c hab hbc
    cases b with
    | nil => simp [goStrLtList] at hab
    | cons b0 bs =>
      cases c with
      | nil => simp [goStrLtList] at hbc
      | cons c0 cs => simp [goStrLtList]
  | cons a0 as ih =>
    intro b c hab hbc
    cases b with
    | nil => simp [goStrLtList] at hab
    | cons b0 bs =>
      cases c with
      | nil => simp [goStrLtList] at hbc
      | cons c0 cs =>
        simp only [goStrLtList] at hab hbc ⊢
        by_cases h1 : a0.toNat < b0.toNat <;> by_cases h2 : b0.toNat < c0.toNat <;>
          simp only [h1, h2, if_true, if_false, if_pos, if_neg, not_false_iff] at hab hbc ⊢
        · have h3 : a0.toNat < c0.toNat := by omega
          simp [h3]
        · by_cases h4 : c0.toNat < b0.toNat
          · simp [h4] at hbc
          · have hbc0 : b0.toNat = c0.toNat := by omega
            have h3 : a0.toNat < c0.toNat := by omega
            simp [h3]
        · by_cases h5 : b0.toNat < a0.toNat
          · simp [h5] at hab
          · have hab0 : a0.toNat = b0.toNat := by omega
            have h3 : a0.toNat < c0.toNat := by omega
            simp [h3]
        · by_cases h5 : b0.toNat < a0.toNat
          · simp [h5] at hab
          · by_cases h4 : c0.toNat < b0.toNat
            · simp [h4] at hbc
            · simp only [h5, if_false, if_neg, not_false_iff] at hab
              simp only [h4, if_false, if_neg, not_false_iff] at hbc
              have h3 : ¬ a0.toNat < c0.toNat := by omega
              have h6 : ¬ c0.toNat < a0.toNat := by omega
              simp only [h3, h6, if_false, if_neg, not_false_iff]
              exact ih bs cs hab hbc

theorem goStrLtList_eq : ∀ a b : List Char, goStrLtList a b = false →
    goStrLtList b a = false → a = b := by
  intro a
  induction a with
  | nil =>
    intro b h1 _
    cases b with
    | nil => rfl
    | cons b0 bs => simp [goStrLtList] at h1
  | cons a0 as ih =>
    intro b h1 h2
    cases b with
    | nil => simp [goStrLtList] at h2
    | cons b0 bs =>
      simp only [goStrLtList] at h1 h2
      by_cases hab : a0.toNat < b0.toNat
      · simp [hab] at h1
      · by_cases hba : b0.toNat < a0.toNat
        · simp [hba] at h2
        · have he : a0 = b0 := char_eq_of_toNat_eq (by omega)
          simp only [hab, hba, if_false, if_neg, not_false_iff] at h1 h2
          rw [he, ih bs h1 h2]

theorem goStrLt_irrefl (a : String) : goStrLt a a = false :=
  goStrLtList_irrefl a.data

theorem goStrLt_trans {a b c : String} (h1 : goStrLt a b = true)
    (h2 : goStrLt b c = true) : goStrLt a c = true :=
  goStrLtList_trans a.data b.data c.data h1 h2

theorem goStrLt_eq {a b : String} (h1 : goStrLt a b = false)
    (h2 : goStrLt b a = false) : a = b :=
  congrArg String.mk (goStrLtList_eq a.data b.data h1 h2)

theorem goStrLt_asymm {a b : String} (h1 : goStrLt a b = true) :
    goStrLt b a = false := by
  by_contra h
  have h2 : goStrLt b a = true := by
    cases hba : goStrLt b a
    · exact absurd hba h
    · rfl
  have := goStrLt_trans h1 h2
  rw [goStrLt_irrefl] at this
  exact Bool.false_ne_true this

instance : IsTotal (String × Nat) fileOrd := by
  constructor
  intro a b
  unfold fileOrd fileLe
  by_cases h : a.2 = b.2
  · simp only [h, if_pos, if_true]
    cases hl : goStrLt b.1 a.1
    · left; rfl
    · right; rw [goStrLt_asymm hl]; rfl
  · have h2 : ¬ b.2 = a.2 := fun e => h e.symm
    rw [if_neg h, if_neg h2]
    simp only [decide_eq_true_eq]
    omega

instance : IsTrans (String × Nat) fileOrd := by
  constructor
  intro a b c hab hbc
  unfold fileOrd fileLe at *
  by_cases h1 : a.2 = b.2 <;> by_cases h2 : b.2 = c.2
  · have h3 : a.2 = c.2 := h1.trans h2
    rw [if_pos h1] at hab
    rw [if_pos h2] at hbc
    rw [if_pos h3]
    simp only [Bool.not_eq_true'] at hab hbc ⊢
    by_contra hca
    have hca2 : goStrLt c.1 a.1 = true := by
      cases hx : goStrLt c.1 a.1
      · exact absurd hx hca
      · rfl
    by_cases hbc1 : goStrLt b.1 c.1 = true
    · have hba := goStrLt_trans hbc1 hca2
      rw [hab] at hba
      exact Bool.false_ne_true hba
    · have hbc0 : goStrLt b.1 c.1 = false := by
        cases hx : goStrLt b.1 c.1
        · rfl
        · exact absurd hx hbc1
      have hbceq : b.1 = c.1 := goStrLt_eq hbc0 hbc
      rw [← hbceq] at hca2
      rw [hab] at hca2
      exact Bool.false_ne_true hca2
  · have h3 : ¬ a.2 = c.2 := by rw [h1]; exact h2
    rw [if_neg h2] at hbc
    rw [if_neg h3]
    simp only [decide_eq_true_eq] at hbc ⊢
    omega
  · rw [if_neg h1] at hab
    by_cases h3 : a.2 = c.2
    · exfalso
      rw [← h2] at h3
      exact h1 h3
    · rw [if_neg h3]
      simp only [decide_eq_true_eq] at hab ⊢
      omega
  · rw [if_neg h1] at hab
    rw [if_neg h2] at hbc
    simp only [decide_eq_true_eq] at hab hbc
    have h3 : ¬ a.2 = c.2 := by omega
    rw [if_neg h3]
    simp only [decide_eq_true_eq]
    omega

instance : IsAntisymm (String × Nat) fileOrd := by
  constructor
  intro a b hab hba
  unfold fileOrd fileLe at hab hba
  by_cases h : a.2 = b.2
  · rw [if_pos h] at hab
    rw [if_pos h.symm] at hba
    simp only [Bool.not_eq_true'] at hab hba
    have h1 : a.1 = b.1 := goStrLt_eq hba hab
    cases a; cases b
    simp_all
  · have h2 : ¬ b.2 = a.2 := fun e => h e.symm
    rw [if_neg h] at hab
    rw [if_neg h2] at hba
    simp only [decide_eq_true_eq] at hab hba
    omega

/-! ### Deduplication lemmas -/

theorem dedupGo_idem (l : List SearchResult) :
    ∀ seen, dedupGo seen (dedupGo seen l) = dedupGo seen l := by
  induction l with
  | nil => intro seen; rfl
  | cons r rest ih =>
    intro seen
    by_cases h : seen.any (fun k => isOverlapping k (rangeKey r)) = true
    · simp only [dedupGo, h, if_true]
      exact ih seen
    · simp only [dedupGo, h, if_false, Bool.false_eq_true, if_neg, not_false_iff]
      exact congrArg (r :: ·) (ih (rangeKey r :: seen))

/-- C9: result deduplication is idempotent — applying `deduplicateResults`
to its own output returns that output unchanged, for every input list. -/
theorem deduplicateResults_idempotent (l : List SearchResult) :
    deduplicateResults (deduplicateResults l) = deduplicateResults l := by
  cases l with
  | nil => rfl
  | cons r rest =>
    have h1 : deduplicateResults (r :: rest) = dedupGo [] (r :: rest) := rfl
    have h2 : dedupGo [] (r :: rest) = r :: dedupGo [rangeKey r] rest := by
      simp [dedupGo]
    rw [h1, h2]
    show deduplicateResults (r :: dedupGo [rangeKey r] rest) = _
    rw [deduplicateResults]
    simp only [List.isEmpty_cons, Bool.false_eq_true, if_neg, not_false_iff]
    rw [← h2]
    exact dedupGo_idem (r :: rest) []

/-- C4: the dedup overlap rule is a strict greater-than-50%-of-either-range
test — same-file hits (1–50) vs (40–90) are both kept, the exact-50%
boundary pair (1–50) vs (26–75) are both kept, and (1–50) vs (20–70)
are deduplicated with the lower-scored (later) hit dropped. -/
theorem dedup_threshold_cases :
    deduplicateResults
        [⟨"1", 9, "f.go", "a", 1, 50, "go"⟩, ⟨"2", 8, "f.go", "b", 40, 90, "go"⟩] =
      [⟨"1", 9, "f.go", "a", 1, 50, "go"⟩, ⟨"2", 8, "f.go", "b", 40, 90, "go"⟩] ∧
    deduplicateResults
        [⟨"1", 9, "f.go", "a", 1, 50, "go"⟩, ⟨"2", 8, "f.go", "b", 26, 75, "go"⟩] =
      [⟨"1", 9, "f.go", "a", 1, 50, "go"⟩, ⟨"2", 8, "f.go", "b", 26, 75, "go"⟩] ∧
    deduplicateResults
        [⟨"1", 9, "f.go", "a", 1, 50, "go"⟩, ⟨"2", 8, "f.go", "b", 20, 70, "go"⟩] =
      [⟨"1", 9, "f.go", "a", 1, 50, "go"⟩] := by
  decide

/-! ### Chunker lemmas -/

theorem chunkLoopF_fuel (fp : String) (lines : List String) :
    ∀ fuel₁ fuel₂ i, lines.length - i ≤ fuel₁ → lines.length - i ≤ fuel₂ →
      chunkLoopF fp lines i fuel₁ = chunkLoopF fp lines i fuel₂ := by
  intro fuel₁
  induction fuel₁ with
  | zero =>
    intro fuel₂ i h1 _
    have hi : ¬ i < lines.length := by omega
    cases fuel₂ with
    | zero => rfl
    | succ f => simp [chunkLoopF, hi]
  | succ f1 ih =>
    intro fuel₂ i h1 h2
    cases fuel₂ with
    | zero =>
      have hi : ¬ i < lines.length := by omega
      simp [chunkLoopF, hi]
    | succ f2 =>
      by_cases hi : i < lines.length
      · have hrec := ih f2 (i + 40) (by omega) (by omega)
        simp only [chunkLoopF]
        rw [if_pos hi, if_pos hi, hrec]
      · simp [chunkLoopF, hi]

/-- One unfolding of the loop when the current window is non-blank. -/
theorem chunkLoopF_step (fp : String) (lines : List String) {i f : Nat}
    (hi : i < lines.length) (hb : isBlank (window lines i) = false) :
    chunkLoopF fp lines i (f + 1) =
      if min (i + 50) lines.length = lines.length then
        [⟨fp, window lines i, i + 1, min (i + 50) lines.length, detectLanguage fp⟩]
      else
        ⟨fp, window lines i, i + 1, min (i + 50) lines.length, detectLanguage fp⟩ ::
          chunkLoopF fp lines (i + 40) f := by
  simp only [chunkLoopF]
  rw [if_pos hi, if_neg (by simp [hb])]

theorem chunkLoopF_bounds (fp : String) (lines : List String) :
    ∀ fuel i c, c ∈ chunkLoopF fp lines i fuel →
      i + 1 ≤ c.LineStart ∧ c.LineStart ≤ c.LineEnd ∧ c.LineEnd ≤ lines.length := by
  intro fuel
  induction fuel with
  | zero => intro i c hc; simp [chunkLoopF] at hc
  | succ f ih =>
    intro i c hc
    by_cases hi : i < lines.length
    · simp only [chunkLoopF] at hc
      rw [if_pos hi] at hc
      by_cases hb : isBlank (window lines i) = true
      · rw [if_pos hb] at hc
        have := ih (i + 40) c hc
        omega
      · rw [if_neg hb] at hc
        by_cases he : min (i + 50) lines.length = lines.length
        · rw [if_pos he] at hc
          simp only [List.mem_singleton] at hc
          subst hc
          dsimp only
          omega
        · rw [if_neg he] at hc
          rcases List.mem_cons.mp hc with rfl | hc
          · dsimp only
            omega
          · have := ih (i + 40) c hc
            omega
    · simp only [chunkLoopF] at hc
      rw [if_neg hi] at hc
      simp at hc

theorem chunkLoopF_covers (fp : String) (lines : List String)
    (hw : nonBlankWindows lines) :
    ∀ fuel i, lines.length - i ≤ fuel → i % 40 = 0 →
      ∀ ℓ, i < ℓ → ℓ ≤ lines.length →
        ∃ c ∈ chunkLoopF fp lines i fuel, c.LineStart ≤ ℓ ∧ ℓ ≤ c.LineEnd := by
  intro fuel
  induction fuel with
  | zero =>
    intro i h1 _ ℓ hℓ1 hℓ2
    omega
  | succ f ih =>
    intro i h1 h40 ℓ hℓ1 hℓ2
    have hi : i < lines.length := by omega
    have hb := hw i hi h40
    rw [chunkLoopF_step fp lines hi hb]
    by_cases he : min (i + 50) lines.length = lines.length
    · rw [if_pos he]
      refine ⟨_, List.mem_singleton_self _, ?_, ?_⟩ <;> dsimp only <;> omega
    · rw [if_neg he]
      have hlt : i + 50 < lines.length := by omega
      by_cases hcase : ℓ ≤ i + 50
      · refine ⟨_, List.mem_cons_self _ _, ?_, ?_⟩ <;> dsimp only <;> omega
      · obtain ⟨c, hc, hcs, hce⟩ := ih (i + 40) (by omega) (by omega) ℓ (by omega) hℓ2
        exact ⟨c, List.mem_cons_of_mem _ hc, hcs, hce⟩

theorem chunkLoopF_lastEnd (fp : String) (lines : List String)
    (hw : nonBlankWindows lines) :
    ∀ fuel i, lines.length - i ≤ fuel → i % 40 = 0 → i < lines.length →
      ∃ c, (chunkLoopF fp lines i fuel).getLast? = some c ∧
        c.LineEnd = lines.length := by
  intro fuel
  induction fuel with
  | zero =>
    intro i h1 _ hi
    omega
  | succ f ih =>
    intro i h1 h40 hi
    have hb := hw i hi h40
    rw [chunkLoopF_step fp lines hi hb]
    by_cases he : min (i + 50) lines.length = lines.length
    · rw [if_pos he]
      exact ⟨_, rfl, he⟩
    · rw [if_neg he]
      have hlt : i + 50 < lines.length := by omega
      obtain ⟨c, hc1, hc2⟩ := ih (i + 40) (by omega) (by omega) (by omega)
      cases hrest : chunkLoopF fp lines (i + 40) f with
      | nil => rw [hrest] at hc1; simp at hc1
      | cons x xs =>
        rw [hrest] at hc1
        rw [List.getLast?_cons_cons]
        exact ⟨c, hc1, hc2⟩

theorem splitCharAux_ne_nil (sep : Char) :
    ∀ l acc, splitCharAux sep l acc ≠ [] := by
  intro l
  induction l with
  | nil => intro acc; simp [splitCharAux]
  | cons c cs ih =>
    intro acc
    by_cases h : c = sep
    · simp [splitCharAux, h]
    · simp only [splitCharAux, if_neg h]
      exact ih (c :: acc)

theorem splitChar_length_pos (sep : Char) (s : String) :
    0 < (splitChar sep s).length :=
  List.length_pos.mpr (splitCharAux_ne_nil sep s.data [])

/-- C5 (amended): for a file whose visited windows are all non-blank (so
no window is dropped), the emitted chunks stay within the file (every
range lies in `[1, N]`), their ranges jointly cover every line `1..N`,
and the loop's final emitted chunk ends exactly at line `N`.  Without the
non-blank hypothesis the property fails: see the counterexample. -/
theorem chunkContent_coverage (fp text : String)
    (hw : nonBlankWindows (splitChar '\n' text)) :
    (∀ c ∈ chunkContent fp text,
        1 ≤ c.LineStart ∧ c.LineStart ≤ c.LineEnd ∧
          c.LineEnd ≤ (splitChar '\n' text).length) ∧
    (∀ ℓ, 1 ≤ ℓ → ℓ ≤ (splitChar '\n' text).length →
        ∃ c ∈ chunkContent fp text, c.LineStart ≤ ℓ ∧ ℓ ≤ c.LineEnd) ∧
    (chunkContent fp text).getLast?.map CodeChunk.LineEnd =
      some (splitChar '\n' text).length := by
  refine ⟨?_, ?_, ?_⟩
  · intro c hc
    have h := chunkLoopF_bounds fp (splitChar '\n' text) _ 0 c hc
    omega
  · intro ℓ h1 h2
    exact chunkLoopF_covers fp (splitChar '\n' text) hw
      (splitChar '\n' text).length 0 (by omega) (by omega) ℓ (by omega) h2
  · have hpos := splitChar_length_pos '\n' text
    obtain ⟨c, hc1, hc2⟩ :=
      chunkLoopF_lastEnd fp (splitChar '\n' text) hw
        (splitChar '\n' text).length 0 (by omega) (by omega) hpos
    show (chunkLoopF fp (splitChar '\n' text) 0
      (splitChar '\n' text).length).getLast?.map CodeChunk.LineEnd = _
    rw [hc1]
    simp [hc2]

/-- C5 witness: a three-line file with no blank window — the last chunk
ends at line 3 = the number of lines. -/
theorem chunkContent_coverage_witness :
    (chunkContent "f.go" "a\nb\nc").getLast?.map CodeChunk.LineEnd =
      some (splitChar '\n' "a\nb\nc").length :=
  (chunkContent_coverage "f.go" "a\nb\nc" (by decide)).2.2

/-- C5 counterexample: a 51-line file whose last 11 lines are blank.  The
final window (lines 41–51) is entirely blank and is dropped, so the only
emitted chunk is (1, 50): line 51 is not covered by any chunk and the
last emitted chunk's end line is 50, not N = 51 — refuting the claim as
stated for every file of N ≥ 1 lines. -/
theorem chunkContent_blankTail :
    (splitChar '\n' (joinChar '\n'
        (List.replicate 40 "x" ++ List.replicate 11 ""))).length = 51 ∧
    (chunkContent "f.go" (joinChar '\n'
        (List.replicate 40 "x" ++ List.replicate 11 ""))).map
      (fun c => (c.LineStart, c.LineEnd)) = [(1, 50)] ∧
    ¬ (∃ c ∈ chunkContent "f.go" (joinChar '\n'
        (List.replicate 40 "x" ++ List.replicate 11 "")),
        c.LineStart ≤ 51 ∧ 51 ≤ c.LineEnd) ∧
    (chunkContent "f.go" (joinChar '\n'
        (List.replicate 40 "x" ++ List.replicate 11 ""))).getLast?.map
      CodeChunk.LineEnd ≠ some 51 := by
  decide

/-- C2: the code does NOT restrict overlap comparison to same-file hits —
`parseRangeKey` replaces the file slot by the constant `0`, so two hits
from different files `a.go` and `b.go` with identical ranges are treated
as overlapping and the lower-ranked one is discarded, contradicting the
stated (intended) contract and the source's own comments. -/
theorem dedup_crossFile_bug :
    isOverlapping "a.go:1-50" "b.go:1-50" = true ∧
    deduplicateResults
        [⟨"1", 9, "a.go", "a", 1, 50, "go"⟩, ⟨"2", 8, "b.go", "b", 1, 50, "go"⟩] =
      [⟨"1", 9, "a.go", "a", 1, 50, "go"⟩] := by
  decide

/-! ### File collection: determinism and ordering -/

/-- C7: file collection is deterministic and ordered — for any two
traversal orders of the same file set the collected list is identical,
and the collected (path, priority) pairs are sorted by ascending priority
with lexicographic path as tie-break (`fileOrd`), the priority being the
first relative-path component found in the fixed table (default 99). -/
theorem collectFiles_deterministic (rootPath : String) (exts : List String)
    (fs fs' : List SrcFile) (h : fs.Perm fs') :
    collectFiles rootPath exts fs = collectFiles rootPath exts fs' ∧
    List.Sorted fileOrd (collectPairs rootPath exts fs) := by
  constructor
  · have hperm : (collectPairs rootPath exts fs).Perm (collectPairs rootPath exts fs') := by
      unfold collectPairs
      exact ((List.perm_insertionSort fileOrd _).trans
        (((h.filter (candidateFile exts)).map _).trans
          (List.perm_insertionSort fileOrd _).symm))
    have hs1 : List.Sorted fileOrd (collectPairs rootPath exts fs) :=
      List.sorted_insertionSort fileOrd _
    have hs2 : List.Sorted fileOrd (collectPairs rootPath exts fs') :=
      List.sorted_insertionSort fileOrd _
    exact congrArg (List.map Prod.fst) (List.eq_of_perm_of_sorted hperm hs1 hs2)
  · exact List.sorted_insertionSort fileOrd _

/-- C7 witness: files under `middleware/`, `utils/` and an unranked
directory, presented in two different traversal orders, collect to the
same list: middleware first, utils second, unranked last. -/
theorem collectFiles_deterministic_witness :
    collectFiles "r" [".go"]
        [⟨["utils", "b.go"], "y"⟩, ⟨["other", "c.go"], "z"⟩,
          ⟨["middleware", "a.go"], "x"⟩] =
      collectFiles "r" [".go"]
        [⟨["middleware", "a.go"], "x"⟩, ⟨["other", "c.go"], "z"⟩,
          ⟨["utils", "b.go"], "y"⟩] ∧
    collectFiles "r" [".go"]
        [⟨["utils", "b.go"], "y"⟩, ⟨["other", "c.go"], "z"⟩,
          ⟨["middleware", "a.go"], "x"⟩] =
      ["r/middleware/a.go", "r/utils/b.go", "r/other/c.go"] :=
  ⟨(collectFiles_deterministic "r" [".go"] _ _ (by decide)).1, by decide⟩

/-! ### Pipeline lemmas -/

theorem initState_fresh {st : IndexingState} {path : String}
    (h : st.RootPath ≠ path ∨ st.Status = "completed") :
    initState (some st) path = initState none path := by
  unfold initState
  dsimp only
  rw [if_pos h]

theorem IDI_fresh (path : String) (exts : List String) (fs : List SrcFile)
    (eo uo : List CodeChunk → Bool) {st : IndexingState}
    (h : st.RootPath ≠ path ∨ st.Status = "completed") :
    IndexDirectoryIncremental path exts fs eo uo (some st) =
      IndexDirectoryIncremental path exts fs eo uo none := by
  unfold IndexDirectoryIncremental
  rw [initState_fresh h]

theorem pipelineRun_status (path : String) (exts : List String) (fs : List SrcFile)
    (eo uo : List CodeChunk → Bool) (st0 : IndexingState) :
    (pipelineRun path exts fs eo uo st0).state.Status = "completed" ∧
    (pipelineRun path exts fs eo uo st0).trace.statusSets = ["completed"] ∧
    (pipelineRun path exts fs eo uo st0).trace.saves.getLast? =
      some (pipelineRun path exts fs eo uo st0).state := by
  unfold pipelineRun
  dsimp only
  split <;> simp [SetStatus, List.getLast?_concat]

/-- C10: every uninterrupted run that collects files successfully ends by
setting status `"completed"` — the only `SetStatus` call a run ever makes
is `"completed"` (never `"failed"`), and the last state save of the run
is the returned, completed state — regardless of how many files or
batches failed (both oracles are universally quantified, including
always-failing ones). -/
theorem run_sets_completed (path : String) (exts : List String) (fs : List SrcFile)
    (eo uo : List CodeChunk → Bool) (loaded : Option IndexingState) :
    (IndexDirectoryIncremental path exts fs eo uo loaded).state.Status = "completed" ∧
    (IndexDirectoryIncremental path exts fs eo uo loaded).trace.statusSets =
      ["completed"] ∧
    (IndexDirectoryIncremental path exts fs eo uo loaded).trace.saves.getLast? =
      some (IndexDirectoryIncremental path exts fs eo uo loaded).state :=
  pipelineRun_status path exts fs eo uo (initState loaded path)

/-- C1 (amended): after a completed run, a second run over the unchanged
tree does NOT resume with zero work — because the persisted status is
`"completed"`, it discards the state and is exactly identical to a fresh
run (same embedding calls, same storage calls, same final state), ending
again in status `"completed"`.  The second run performs zero
embedding/storage calls only when a fresh run would. -/
theorem second_run_repeats (path : String) (exts : List String) (fs : List SrcFile)
    (eo uo : List CodeChunk → Bool) :
    IndexDirectoryIncremental path exts fs eo uo
        (some (IndexDirectoryIncremental path exts fs eo uo none).state) =
      IndexDirectoryIncremental path exts fs eo uo none ∧
    (IndexDirectoryIncremental path exts fs eo uo
        (some (IndexDirectoryIncremental path exts fs eo uo none).state)).state.Status =
      "completed" := by
  have hs : (IndexDirectoryIncremental path exts fs eo uo none).state.Status =
      "completed" :=
    (pipelineRun_status path exts fs eo uo (initState none path)).1
  have he := IDI_fresh path exts fs eo uo (Or.inr hs)
  exact ⟨he, by rw [he]; exact hs⟩

/-- C1 counterexample: one non-blank file; the first run completes, yet
the second run over the unchanged tree performs an embedding call and an
upsert call (its trace is non-empty), refuting "zero embedding calls and
zero storage calls on the second run". -/
theorem second_run_nonzero_calls :
    (IndexDirectoryIncremental "r" [".go"] [⟨["a.go"], "x"⟩]
        (fun _ => true) (fun _ => true) none).state.Status = "completed" ∧
    (IndexDirectoryIncremental "r" [".go"] [⟨["a.go"], "x"⟩]
        (fun _ => true) (fun _ => true)
        (some (IndexDirectoryIncremental "r" [".go"] [⟨["a.go"], "x"⟩]
          (fun _ => true) (fun _ => true) none).state)).trace.embeds ≠ [] ∧
    (IndexDirectoryIncremental "r" [".go"] [⟨["a.go"], "x"⟩]
        (fun _ => true) (fun _ => true)
        (some (IndexDirectoryIncremental "r" [".go"] [⟨["a.go"], "x"⟩]
          (fun _ => true) (fun _ => true) none).state)).trace.upserts ≠ [] := by
  decide

/-! ### State-marking lemmas -/

theorem IsFileProcessed_mark_self (st : IndexingState) (f : String) (n : Nat) :
    IsFileProcessed (MarkFileProcessed st f n) f = true := by
  unfold IsFileProcessed MarkFileProcessed insertSet
  dsimp only
  by_cases hc : st.ProcessedFiles.contains f
  · rw [if_pos hc]; exact hc
  · rw [if_neg hc]
    exact List.elem_eq_true_of_mem
      (List.mem_append.mpr (Or.inr (List.mem_singleton_self f)))

theorem IsFileProcessed_mark {st : IndexingState} {g : String}
    (h : IsFileProcessed st g = true) (f : String) (n : Nat) :
    IsFileProcessed (MarkFileProcessed st f n) g = true := by
  unfold IsFileProcessed MarkFileProcessed insertSet at *
  dsimp only
  by_cases hc : st.ProcessedFiles.contains f
  · rw [if_pos hc]; exact h
  · rw [if_neg hc]
    exact List.elem_eq_true_of_mem
      (List.mem_append.mpr (Or.inl (List.mem_of_elem_eq_true h)))

/-- One step of the mark loop: the head file is marked failed on a read
error and processed (with its chunk count, 0 for a chunk-less file)
otherwise; the final state only depends on the per-file marks. -/
theorem markPhase_cons_fst (rootPath : String) (fs : List SrcFile)
    (f : String) (rest : List String) (st : IndexingState) :
    (markPhase rootPath fs (f :: rest) st).1 =
      (markPhase rootPath fs rest
        (match chunkFile rootPath fs f with
         | none => MarkFileFailed st f "read error"
         | some chunks => MarkFileProcessed st f chunks.length)).1 := by
  cases hcf : chunkFile rootPath fs f with
  | none => simp [markPhase, hcf]
  | some chunks =>
    by_cases hemp : chunks.isEmpty
    · have h0 : chunks.length = 0 := by simp [List.isEmpty_iff.mp hemp]
      simp [markPhase, hcf, hemp, h0]
    · simp [markPhase, hcf, hemp]

theorem markPhase_state (rootPath : String) (fs : List SrcFile) :
    ∀ files (st : IndexingState),
      (markPhase rootPath fs files st).1.RootPath = st.RootPath ∧
      (markPhase rootPath fs files st).1.Status = st.Status ∧
      (markPhase rootPath fs files st).1.IndexedFiles =
        st.IndexedFiles + files.countP (fun f => (chunkFile rootPath fs f).isSome) ∧
      (markPhase rootPath fs files st).1.TotalChunks =
        st.TotalChunks +
          (files.map (fun f => ((chunkFile rootPath fs f).map List.length).getD 0)).sum ∧
      ∀ g, IsFileProcessed st g = true →
        IsFileProcessed (markPhase rootPath fs files st).1 g = true := by
  intro files
  induction files with
  | nil => intro st; simp [markPhase]
  | cons f rest ih =>
    intro st
    rw [markPhase_cons_fst]
    cases hcf : chunkFile rootPath fs f with
    | none =>
      obtain ⟨h1, h2, h3, h4, h5⟩ := ih (MarkFileFailed st f "read error")
      refine ⟨?_, ?_, ?_, ?_, ?_⟩
      · rw [h1]; rfl
      · rw [h2]; rfl
      · rw [h3]
        simp [List.countP_cons, hcf, MarkFileFailed]
      · rw [h4]
        simp [hcf, MarkFileFailed]
      · intro g hg
        exact h5 g hg
    | some chunks =>
      obtain ⟨h1, h2, h3, h4, h5⟩ := ih (MarkFileProcessed st f chunks.length)
      refine ⟨?_, ?_, ?_, ?_, ?_⟩
      · rw [h1]; rfl
      · rw [h2]; rfl
      · rw [h3]
        simp [List.countP_cons, hcf, MarkFileProcessed]
        omega
      · rw [h4]
        simp [hcf, MarkFileProcessed]
        omega
      · intro g hg
        exact h5 g (IsFileProcessed_mark hg f chunks.length)

theorem markPhase_processed (rootPath : String) (fs : List SrcFile) :
    ∀ files (st : IndexingState) f, f ∈ files →
      (chunkFile rootPath fs f).isSome = true →
      IsFileProcessed (markPhase rootPath fs files st).1 f = true := by
  intro files
  induction files with
  | nil => intro st f hf; simp at hf
  | cons g rest ih =>
    intro st f hf hsome
    rw [markPhase_cons_fst]
    rcases List.mem_cons.mp hf with rfl | hf2
    · cases hcf : chunkFile rootPath fs f with
      | none => rw [hcf] at hsome; simp at hsome
      | some chunks =>
        exact (markPhase_state rootPath fs rest _).2.2.2.2 f
          (IsFileProcessed_mark_self st f chunks.length)
    · exact ih _ f hf2 hsome

/-! ### Chunk provenance lemmas -/

theorem chunkLoopF_filePath (fp : String) (lines : List String) :
    ∀ fuel i c, c ∈ chunkLoopF fp lines i fuel → c.FilePath = fp := by
  intro fuel
  induction fuel with
  | zero => intro i c hc; simp [chunkLoopF] at hc
  | succ f ih =>
    intro i c hc
    by_cases hi : i < lines.length
    · simp only [chunkLoopF] at hc
      rw [if_pos hi] at hc
      by_cases hb : isBlank (window lines i) = true
      · rw [if_pos hb] at hc
        exact ih _ c hc
      · rw [if_neg hb] at hc
        by_cases he : min (i + 50) lines.length = lines.length
        · rw [if_pos he] at hc
          simp only [List.mem_singleton] at hc
          subst hc
          rfl
        · rw [if_neg he] at hc
          rcases List.mem_cons.mp hc with rfl | hc
          · rfl
          · exact ih _ c hc
    · simp only [chunkLoopF] at hc
      rw [if_neg hi] at hc
      simp at hc

theorem chunkContent_filePath {fp text : String} {c : CodeChunk}
    (hc : c ∈ chunkContent fp text) : c.FilePath = fp :=
  chunkLoopF_filePath fp (splitChar '\n' text) _ 0 c hc

theorem chunkFile_filePath {rootPath : String} {fs : List SrcFile} {f : String}
    {chunks : List CodeChunk} (h : chunkFile rootPath fs f = some chunks) :
    ∀ c ∈ chunks, c.FilePath = f := by
  intro c hc
  unfold chunkFile at h
  cases hr : readFile rootPath fs f with
  | none => rw [hr] at h; simp at h
  | some content =>
    rw [hr] at h
    simp only [Option.map_some'] at h
    have heq : chunkContent f content = chunks := by injection h
    rw [← heq] at hc
    exact chunkContent_filePath hc

theorem markPhase_chunks (rootPath : String) (fs : List SrcFile) :
    ∀ files (st : IndexingState) c, c ∈ (markPhase rootPath fs files st).2 →
      c.FilePath ∈ files := by
  intro files
  induction files with
  | nil => intro st c hc; simp [markPhase] at hc
  | cons f rest ih =>
    intro st c hc
    cases hcf : chunkFile rootPath fs f with
    | none =>
      simp only [markPhase, hcf] at hc
      exact List.mem_cons_of_mem f (ih _ c hc)
    | some chunks =>
      by_cases hemp : chunks.isEmpty
      · simp only [markPhase, hcf, hemp, if_pos] at hc
        exact List.mem_cons_of_mem f (ih _ c hc)
      · simp only [markPhase, hcf, hemp, Bool.false_eq_true, if_false, if_neg,
          not_false_iff] at hc
        rcases List.mem_append.mp hc with hc1 | hc2
        · rw [chunkFile_filePath hcf c hc1]
          exact List.mem_cons_self f rest
        · exact List.mem_cons_of_mem f (ih _ c hc2)

/-! ### Batch-level lemmas -/

theorem indexBatchCall_mem {eo uo : List CodeChunk → Bool} {chunks b : List CodeChunk}
    (h : b ∈ (indexBatchCall eo uo chunks).2.1 ∨
      b ∈ (indexBatchCall eo uo chunks).2.2) : b = chunks := by
  unfold indexBatchCall at h
  by_cases h1 : eo chunks = true
  · rw [if_pos h1] at h
    by_cases h2 : uo chunks = true
    · rw [if_pos h2] at h
      rcases h with h | h <;> simpa using h
    · rw [if_neg h2] at h
      rcases h with h | h <;> simpa using h
  · rw [if_neg h1] at h
    rcases h with h | h
    · simpa using h
    · simp at h

theorem indexBatchesF_mem (eo uo : List CodeChunk → Bool) :
    ∀ fuel (chunks : List CodeChunk) b,
      (b ∈ (indexBatchesF eo uo fuel chunks).2.1 ∨
        b ∈ (indexBatchesF eo uo fuel chunks).2.2) →
      ∀ c ∈ b, c ∈ chunks := by
  intro fuel
  induction fuel with
  | zero =>
    intro chunks b hb
    cases chunks <;> simp [indexBatchesF] at hb
  | succ f ih =>
    intro chunks b hb c hc
    cases chunks with
    | nil => simp [indexBatchesF] at hb
    | cons c0 cs =>
      simp only [indexBatchesF] at hb
      by_cases h1 : (indexBatchCall eo uo ((c0 :: cs).take 100)).1 = true
      · rw [if_pos h1] at hb
        dsimp only at hb
        rcases hb with hb | hb <;> rcases List.mem_append.mp hb with hbb | hbb
        · exact List.take_subset 100 _ (indexBatchCall_mem (Or.inl hbb) ▸ hc)
        · exact List.drop_subset 100 _ (ih _ b (Or.inl hbb) c hc)
        · exact List.take_subset 100 _ (indexBatchCall_mem (Or.inr hbb) ▸ hc)
        · exact List.drop_subset 100 _ (ih _ b (Or.inr hbb) c hc)
      · rw [if_neg h1] at hb
        exact List.take_subset 100 _ (indexBatchCall_mem hb ▸ hc)

theorem processBatch_state (rootPath : String) (fs : List SrcFile)
    (eo uo : List CodeChunk → Bool) (files : List String) (st : IndexingState) :
    (processBatch rootPath fs eo uo files st).state =
      (markPhase rootPath fs files st).1 := by
  unfold processBatch
  dsimp only
  split <;> rfl

theorem processBatch_chunkPaths (rootPath : String) (fs : List SrcFile)
    (eo uo : List CodeChunk → Bool) (files : List String) (st : IndexingState) :
    ∀ b, (b ∈ (processBatch rootPath fs eo uo files st).embeds ∨
      b ∈ (processBatch rootPath fs eo uo files st).upserts) →
      ∀ c ∈ b, c.FilePath ∈ files := by
  intro b hb c hc
  unfold processBatch at hb
  dsimp only at hb
  by_cases hemp : (markPhase rootPath fs files st).2.isEmpty = true
  · rw [if_pos hemp] at hb
    dsimp only at hb
    rcases hb with hb | hb <;> simp at hb
  · rw [if_neg hemp] at hb
    dsimp only at hb
    have hmem := indexBatchesF_mem eo uo _ _ b hb c hc
    exact markPhase_chunks rootPath fs files st c hmem

theorem runBatchesF_chunked (rootPath : String) (fs : List SrcFile)
    (eo uo : List CodeChunk → Bool) :
    ∀ fuel files (st : IndexingState), files.length ≤ fuel →
      (runBatchesF rootPath fs eo uo fuel files st).chunked = files := by
  intro fuel
  induction fuel with
  | zero =>
    intro files st h
    cases files with
    | nil => rfl
    | cons f rest => simp at h
  | succ fl ih =>
    intro files st h
    cases files with
    | nil => rfl
    | cons f rest =>
      simp only [runBatchesF]
      rw [ih _ _ (by rw [List.length_drop]; omega)]
      exact List.take_append_drop 50 (f :: rest)

theorem runBatches_chunked (rootPath : String) (fs : List SrcFile)
    (eo uo : List CodeChunk → Bool) (files : List String) (st : IndexingState) :
    (runBatches rootPath fs eo uo files st).chunked = files :=
  runBatchesF_chunked rootPath fs eo uo files.length files st (le_refl _)

theorem runBatchesF_chunkPaths (rootPath : String) (fs : List SrcFile)
    (eo uo : List CodeChunk → Bool) :
    ∀ fuel files (st : IndexingState) b,
      (b ∈ (runBatchesF rootPath fs eo uo fuel files st).embeds ∨
        b ∈ (runBatchesF rootPath fs eo uo fuel files st).upserts) →
      ∀ c ∈ b, c.FilePath ∈ files := by
  intro fuel
  induction fuel with
  | zero =>
    intro files st b hb
    cases files <;> simp [runBatchesF] at hb
  | succ fl ih =>
    intro files st b hb c hc
    cases files with
    | nil => simp [runBatchesF] at hb
    | cons f rest =>
      simp only [runBatchesF] at hb
      rcases hb with hb | hb <;> rcases List.mem_append.mp hb with hbb | hbb
      · exact List.take_subset 50 _
          (processBatch_chunkPaths rootPath fs eo uo _ _ b (Or.inl hbb) c hc)
      · exact List.drop_subset 50 _ (ih _ _ b (Or.inl hbb) c hc)
      · exact List.take_subset 50 _
          (processBatch_chunkPaths rootPath fs eo uo _ _ b (Or.inr hbb) c hc)
      · exact List.drop_subset 50 _ (ih _ _ b (Or.inr hbb) c hc)

theorem runBatches_chunkPaths (rootPath : String) (fs : List SrcFile)
    (eo uo : List CodeChunk → Bool) (files : List String) (st : IndexingState) :
    ∀ b, (b ∈ (runBatches rootPath fs eo uo files st).embeds ∨
      b ∈ (runBatches rootPath fs eo uo files st).upserts) →
      ∀ c ∈ b, c.FilePath ∈ files :=
  runBatchesF_chunkPaths rootPath fs eo uo files.length files st

/-- A file already recorded processed in the selected state is untouched
by the run: never chunked, and no embedded or upserted chunk carries its
path. -/
theorem pipelineRun_skips (path : String) (exts : List String) (fs : List SrcFile)
    (eo uo : List CodeChunk → Bool) (st0 : IndexingState) (f : String)
    (h : IsFileProcessed st0 f = true) :
    f ∉ (pipelineRun path exts fs eo uo st0).trace.chunked ∧
    ∀ b, (b ∈ (pipelineRun path exts fs eo uo st0).trace.embeds ∨
      b ∈ (pipelineRun path exts fs eo uo st0).trace.upserts) →
      ∀ c ∈ b, c.FilePath ≠ f := by
  have hf : f ∉ (collectFiles path exts fs).filter
      (fun g => !(IsFileProcessed
        { st0 with TotalFiles := (collectFiles path exts fs).length } g)) := by
    intro hmem
    have h2 := (List.mem_filter.mp hmem).2
    rw [show IsFileProcessed
        { st0 with TotalFiles := (collectFiles path exts fs).length } f =
      IsFileProcessed st0 f from rfl, h] at h2
    simp at h2
  unfold pipelineRun
  dsimp only
  split
  · constructor
    · simp
    · intro b hb
      rcases hb with hb | hb <;> simp at hb
  · constructor
    · rw [runBatches_chunked]
      exact hf
    · intro b hb c hc heq
      have := runBatches_chunkPaths path fs eo uo _ _ b hb c hc
      rw [heq] at this
      exact hf this

/-- C3: the run starts fresh exactly under the source's condition — when
loading failed the fresh state is used by definition, and when a state
was loaded, a root-path mismatch or a `"completed"` status makes the run
identical to a fresh run; otherwise the loaded state is resumed and every
file it records as processed is excluded: it is never chunked again and
no embedding or upsert call of that run carries one of its chunks. -/
theorem resume_contract (path : String) (exts : List String) (fs : List SrcFile)
    (eo uo : List CodeChunk → Bool) (st : IndexingState) :
    (st.RootPath ≠ path ∨ st.Status = "completed" →
      IndexDirectoryIncremental path exts fs eo uo (some st) =
        IndexDirectoryIncremental path exts fs eo uo none) ∧
    (st.RootPath = path → st.Status ≠ "completed" →
      ∀ f, IsFileProcessed st f = true →
        f ∉ (IndexDirectoryIncremental path exts fs eo uo (some st)).trace.chunked ∧
        ∀ b, (b ∈ (IndexDirectoryIncremental path exts fs eo uo (some st)).trace.embeds ∨
          b ∈ (IndexDirectoryIncremental path exts fs eo uo (some st)).trace.upserts) →
          ∀ c ∈ b, c.FilePath ≠ f) := by
  constructor
  · intro h
    exact IDI_fresh path exts fs eo uo h
  · intro h1 h2 f hf
    have hres : initState (some st) path = st := by
      unfold initState
      dsimp only
      rw [if_neg]
      intro hor
      rcases hor with hne | hcomp
      · exact hne h1
      · exact h2 hcomp
    have hgoal : IndexDirectoryIncremental path exts fs eo uo (some st) =
        pipelineRun path exts fs eo uo st := by
      unfold IndexDirectoryIncremental
      rw [hres]
    rw [hgoal]
    exact pipelineRun_skips path exts fs eo uo st f hf

/-- C3 witness: a resumed state (matching root, in-progress) that already
records `r/a.go` as processed — the run never chunks that file again. -/
theorem resume_contract_witness :
    "r/a.go" ∉ (IndexDirectoryIncremental "r" [".go"]
        [⟨["a.go"], "x"⟩, ⟨["b.go"], "y"⟩] (fun _ => true) (fun _ => true)
        (some ⟨"r", 0, 0, 0, ["r/a.go"], [], "in_progress"⟩)).trace.chunked :=
  ((resume_contract "r" [".go"] [⟨["a.go"], "x"⟩, ⟨["b.go"], "y"⟩]
      (fun _ => true) (fun _ => true)
      ⟨"r", 0, 0, 0, ["r/a.go"], [], "in_progress"⟩).2 rfl (by decide)
    "r/a.go" (by decide)).1

/-- C6: within one batch, the state mutation is completely determined
before any embedding or upsert call — the resulting state is identical
for every pair of embedding/storage oracles, every file of the batch that
chunks successfully (zero-chunk files included) is marked processed with
the indexed-file counter incremented once per such file and the chunk
counter incremented by its chunk count, and — even when the batch's
embedding/storage failed — a later resume over the same root skips every
such file. -/
theorem batch_marks_before_indexing (rootPath : String) (fs : List SrcFile)
    (files : List String) (st : IndexingState)
    (eo uo eo' uo' : List CodeChunk → Bool) :
    (processBatch rootPath fs eo uo files st).state =
      (processBatch rootPath fs eo' uo' files st).state ∧
    (∀ f, f ∈ files → (chunkFile rootPath fs f).isSome = true →
      IsFileProcessed (processBatch rootPath fs eo uo files st).state f = true) ∧
    (processBatch rootPath fs eo uo files st).state.IndexedFiles =
      st.IndexedFiles + files.countP (fun f => (chunkFile rootPath fs f).isSome) ∧
    (processBatch rootPath fs eo uo files st).state.TotalChunks =
      st.TotalChunks +
        (files.map (fun f => ((chunkFile rootPath fs f).map List.length).getD 0)).sum ∧
    (∀ exts f, f ∈ files → (chunkFile rootPath fs f).isSome = true →
      st.Status ≠ "completed" →
      f ∉ (IndexDirectoryIncremental st.RootPath exts fs eo' uo'
        (some (processBatch rootPath fs eo uo files st).state)).trace.chunked) := by
  have hst : (processBatch rootPath fs eo uo files st).state =
      (markPhase rootPath fs files st).1 :=
    processBatch_state rootPath fs eo uo files st
  refine ⟨?_, ?_, ?_, ?_, ?_⟩
  · rw [hst, processBatch_state]
  · intro f hf hsome
    rw [hst]
    exact markPhase_processed rootPath fs files st f hf hsome
  · rw [hst]
    exact (markPhase_state rootPath fs files st).2.2.1
  · rw [hst]
    exact (markPhase_state rootPath fs files st).2.2.2.1
  · intro exts f hf hsome hstat
    have hproc : IsFileProcessed (processBatch rootPath fs eo uo files st).state f =
        true := by
      rw [hst]
      exact markPhase_processed rootPath fs files st f hf hsome
    have hres : initState (some ((processBatch rootPath fs eo uo files st).state))
        st.RootPath = (processBatch rootPath fs eo uo files st).state := by
      unfold initState
      dsimp only
      rw [if_neg]
      intro hor
      rcases hor with hne | hcomp
      · rw [hst] at hne
        exact hne (markPhase_state rootPath fs files st).1
      · rw [hst] at hcomp
        rw [(markPhase_state rootPath fs files st).2.1] at hcomp
        exact hstat hcomp
    show f ∉ (pipelineRun st.RootPath exts fs eo' uo'
      (initState (some ((processBatch rootPath fs eo uo files st).state))
        st.RootPath)).trace.chunked
    rw [hres]
    exact (pipelineRun_skips st.RootPath exts fs eo' uo'
      (processBatch rootPath fs eo uo files st).state f hproc).1

/-- C6 witness: a batch whose embedding and storage always fail still
leaves the successfully chunked file marked processed. -/
theorem batch_marks_before_indexing_witness :
    IsFileProcessed (processBatch "r" [⟨["a.go"], "x"⟩] (fun _ => false)
      (fun _ => false) ["r/a.go"] (NewIndexingState "r")).state "r/a.go" = true :=
  ((batch_marks_before_indexing "r" [⟨["a.go"], "x"⟩] ["r/a.go"]
      (NewIndexingState "r") (fun _ => false) (fun _ => false)
      (fun _ => false) (fun _ => false)).2.1 "r/a.go" (by decide) (by decide))

/-! ### ReindexFiles lemmas -/

theorem reindexLoop_deletes (rootPath : String) (fs : List SrcFile) :
    ∀ paths, (reindexLoop rootPath fs paths).1 = paths := by
  intro paths
  induction paths with
  | nil => rfl
  | cons p rest ih =>
    cases hr : readFile rootPath fs p with
    | none => simp [reindexLoop, hr, ih]
    | some content =>
      by_cases hemp : (chunkContent p content).isEmpty
      · simp [reindexLoop, hr, hemp, ih]
      · simp [reindexLoop, hr, hemp, ih]

theorem reindexLoop_chunked (rootPath : String) (fs : List SrcFile) :
    ∀ paths p, p ∈ (reindexLoop rootPath fs paths).2.1 →
      (readFile rootPath fs p).isSome = true := by
  intro paths
  induction paths with
  | nil => intro p hp; simp [reindexLoop] at hp
  | cons q rest ih =>
    intro p hp
    cases hr : readFile rootPath fs q with
    | none =>
      simp only [reindexLoop, hr] at hp
      exact ih p hp
    | some content =>
      by_cases hemp : (chunkContent q content).isEmpty
      · simp only [reindexLoop, hr, hemp, if_pos] at hp
        rcases List.mem_cons.mp hp with rfl | hp2
        · rw [hr]; rfl
        · exact ih p hp2
      · simp only [reindexLoop, hr, hemp, Bool.false_eq_true, if_false, if_neg,
          not_false_iff] at hp
        rcases List.mem_cons.mp hp with rfl | hp2
        · rw [hr]; rfl
        · exact ih p hp2

theorem reindexLoop_chunks (rootPath : String) (fs : List SrcFile) :
    ∀ paths c, c ∈ (reindexLoop rootPath fs paths).2.2 →
      (readFile rootPath fs c.FilePath).isSome = true := by
  intro paths
  induction paths with
  | nil => intro c hc; simp [reindexLoop] at hc
  | cons q rest ih =>
    intro c hc
    cases hr : readFile rootPath fs q with
    | none =>
      simp only [reindexLoop, hr] at hc
      exact ih c hc
    | some content =>
      by_cases hemp : (chunkContent q content).isEmpty
      · simp only [reindexLoop, hr, hemp, if_pos] at hc
        exact ih c hc
      · simp only [reindexLoop, hr, hemp, Bool.false_eq_true, if_false, if_neg,
          not_false_iff] at hc
        rcases List.mem_append.mp hc with hc1 | hc2
        · rw [chunkContent_filePath hc1, hr]
          rfl
        · exact ih c hc2

theorem reindexLoop_noChunks (rootPath : String) (fs : List SrcFile) :
    ∀ paths, (∀ p ∈ paths, ∀ content, readFile rootPath fs p = some content →
        chunkContent p content = []) →
      (reindexLoop rootPath fs paths).2.2 = [] := by
  intro paths
  induction paths with
  | nil => intro _; rfl
  | cons q rest ih =>
    intro h
    have hrest := ih (fun p hp content hc => h p (List.mem_cons_of_mem q hp) content hc)
    cases hr : readFile rootPath fs q with
    | none => simp [reindexLoop, hr, hrest]
    | some content =>
      have hq : chunkContent q content = [] :=
        h q (List.mem_cons_self q rest) content hr
      simp [reindexLoop, hr, hq, hrest]

/-- C8: every requested path receives exactly one store delete call (the
delete list is exactly the request list, in order); a requested path that
does not exist on disk is never chunked and none of its chunks can appear
in any embedding or upsert call (its absence is not an error — deletion
is the only action); and when no requested path yields chunks the call
succeeds with no embedding and no upsert call at all. -/
theorem reindex_missing_paths (rootPath : String) (fs : List SrcFile)
    (eo uo : List CodeChunk → Bool) (paths : List String) :
    (ReindexFiles rootPath fs eo uo paths).deletes = paths ∧
    (∀ p, p ∈ paths → readFile rootPath fs p = none →
      p ∉ (ReindexFiles rootPath fs eo uo paths).chunked ∧
      ∀ b, (b ∈ (ReindexFiles rootPath fs eo uo paths).embeds ∨
        b ∈ (ReindexFiles rootPath fs eo uo paths).upserts) →
        ∀ c ∈ b, c.FilePath ≠ p) ∧
    ((∀ p ∈ paths, ∀ content, readFile rootPath fs p = some content →
        chunkContent p content = []) →
      (ReindexFiles rootPath fs eo uo paths).ok = true ∧
      (ReindexFiles rootPath fs eo uo paths).embeds = [] ∧
      (ReindexFiles rootPath fs eo uo paths).upserts = []) := by
  refine ⟨?_, ?_, ?_⟩
  · unfold ReindexFiles
    dsimp only
    split <;> exact reindexLoop_deletes rootPath fs paths
  · intro p _ hnone
    have hchunked : (ReindexFiles rootPath fs eo uo paths).chunked =
        (reindexLoop rootPath fs paths).2.1 := by
      unfold ReindexFiles
      dsimp only
      split <;> rfl
    constructor
    · rw [hchunked]
      intro hmem
      have := reindexLoop_chunked rootPath fs paths p hmem
      rw [hnone] at this
      simp at this
    · intro b hb c hc heq
      revert hb
      unfold ReindexFiles
      dsimp only
      split
      · intro hb
        rcases hb with hb | hb <;> simp at hb
      · intro hb
        have hbeq : b = (reindexLoop rootPath fs paths).2.2 := indexBatchCall_mem hb
        rw [hbeq] at hc
        have := reindexLoop_chunks rootPath fs paths c hc
        rw [heq, hnone] at this
        simp at this
  · intro hno
    have hempty : (reindexLoop rootPath fs paths).2.2 = [] :=
      reindexLoop_noChunks rootPath fs paths hno
    unfold ReindexFiles
    dsimp only
    rw [if_pos (by rw [hempty]; rfl)]
    exact ⟨rfl, rfl, rfl⟩

/-- C8 witness: reindexing one path that is not on disk issues exactly
its delete and chunks nothing. -/
theorem reindex_missing_paths_witness :
    (ReindexFiles "r" [⟨["a.go"], "x"⟩] (fun _ => true) (fun _ => true)
      ["r/gone.go"]).deletes = ["r/gone.go"] ∧
    "r/gone.go" ∉ (ReindexFiles "r" [⟨["a.go"], "x"⟩] (fun _ => true)
      (fun _ => true) ["r/gone.go"]).chunked :=
  ⟨(reindex_missing_paths "r" [⟨["a.go"], "x"⟩] (fun _ => true) (fun _ => true)
      ["r/gone.go"]).1,
   ((reindex_missing_paths "r" [⟨["a.go"], "x"⟩] (fun _ => true) (fun _ => true)
      ["r/gone.go"]).2.1 "r/gone.go" (by decide) (by decide)).1⟩

end Rag
